import Mathlib

/-!
Verification of the numerically hard core of a drone-detection service:
feature extraction, TDOA estimation, multilateration and long-audio
segmentation, shallowly embedded from the Python source (`app.py`,
`audio_processor.py`, `model_loader.py`).  Machine floats are modelled as
exact rationals (or reals where irrational inputs are needed); numpy /
scipy calls are translated at the level of their documented semantics.
-/

namespace DroneDet

/-! ### Multichannel audio

A 2-D numpy array of shape `(samples, channels)` is embedded as the list of
its channel columns, together with the fact (automatic for numpy arrays)
that all channels have the same length. -/

structure Audio2D where
  cols : List (List ℚ)
  nsamples : ℕ
  rect : ∀ c ∈ cols, c.length = nsamples

/-- Out-of-range reads of a sequence give 0 (zero-padded signal), used to
express `np.correlate`'s implicit zero padding. -/
def getQ (l : List ℚ) (i : ℤ) : ℚ :=
  if 0 ≤ i then l.getD i.toNat 0 else 0

/-- `np.correlate(a, v, mode='full')`: output index `j` holds
`sum_n a[n + j - (len(v) - 1)] * v[n]`, out-of-range reads being zero. -/
def correlateFull (a v : List ℚ) : List ℚ :=
  (List.range (a.length + v.length - 1)).map fun (j : ℕ) =>
    ∑ n ∈ Finset.range v.length,
      getQ a ((n : ℤ) + (j : ℤ) - ((v.length : ℤ) - 1)) * getQ v ((n : ℤ))

/-- Helper for `np.argmax(np.abs(c))`: fold over the remaining list keeping
the index of the first strictly greatest absolute value. -/
def argmaxFrom : ℕ → ℚ → ℕ → List ℚ → ℕ
  | bi, _, _, [] => bi
  | bi, bv, i, x :: xs =>
    if bv < |x| then argmaxFrom i |x| (i + 1) xs else argmaxFrom bi bv (i + 1) xs

/-- `np.argmax(np.abs(c))`: index of the first occurrence of the maximal
absolute value (0 for the empty array). -/
def argmaxAbs : List ℚ → ℕ
  | [] => 0
  | x :: xs => argmaxFrom 0 |x| 1 xs

/-- Maximum absolute value of a list (`np.max(np.abs(...))` over one channel). -/
def maxAbsList (l : List ℚ) : ℚ := l.foldr (fun x m => max |x| m) 0

/-- Global maximum absolute value over all channels of a 2-D array. -/
def maxAbs2D (cols : List (List ℚ)) : ℚ :=
  cols.foldr (fun c m => max (maxAbsList c) m) 0

/-- `max_physical_delay = 2.0 / 343.0` from `calculate_tdoa_enhanced`. -/
def maxPhysicalDelay : ℚ := 2 / 343

/-- The sub-sample-refined peak location of a correlation array
(`app.py` lines 146-158): the `argmax` of the absolute correlation,
shifted by the parabolic-interpolation offset
`(y3 - y1) / (2(2 y2 - y1 - y3))` of the three straddling samples when the
peak is away from either array boundary. -/
def refinedPeak (c : List ℚ) : ℚ :=
  if 0 < argmaxAbs c ∧ ((argmaxAbs c : ℤ)) < (c.length : ℤ) - 1 then
    (argmaxAbs c : ℚ) +
      (getQ c ((argmaxAbs c : ℤ) + 1) - getQ c ((argmaxAbs c : ℤ) - 1)) /
        (2 * (2 * getQ c ((argmaxAbs c : ℤ)) - getQ c ((argmaxAbs c : ℤ) - 1) -
          getQ c ((argmaxAbs c : ℤ) + 1)))
  else (argmaxAbs c : ℚ)

/-- The unclamped delay for one channel in `calculate_tdoa_enhanced`
(`app.py` lines 144-162): full cross-correlation with the reference,
refined peak, conversion of the lag (relative to the zero-lag position
`len(ref) - 1`) to seconds. -/
def rawTdoa (ref ch : List ℚ) (sr : ℚ) : ℚ :=
  (refinedPeak (correlateFull ref ch) - ((ref.length : ℚ) - 1)) / sr

/-- One entry of the TDOA vector: the raw delay clamped to 0.0 when its
magnitude exceeds the physical bound (`app.py` lines 164-168). -/
def clampedTdoa (ref ch : List ℚ) (sr : ℚ) : ℚ :=
  if maxPhysicalDelay < |rawTdoa ref ch sr| then 0 else rawTdoa ref ch sr

/-- `calculate_tdoa_enhanced(audio_data, sr)` (`app.py` lines 130-177):
requires at least 3 channels, normalizes all channels by the global peak
magnitude, and returns the clamped delays of channels 1 and 2 against the
reference channel 0. -/
def calculate_tdoa_enhanced (audio : Audio2D) (sr : ℚ) : Except String (List ℚ) :=
  if audio.cols.length < 3 then
    .error ("Audio must have at least 3 channels. Got "
            ++ toString audio.cols.length ++ " channels")
  else
    .ok ([1, 2].map fun i =>
      clampedTdoa
        ((audio.cols.map fun c => c.map fun x => x / maxAbs2D audio.cols).getD 0 [])
        ((audio.cols.map fun c => c.map fun x => x / maxAbs2D audio.cols).getD i []) sr)

/-- The lag-`t` autocorrelation sum of a zero-padded signal: entry `j` of
`correlateFull b b` equals `corrS b (j - (b.length - 1))`. -/
def corrS (b : List ℚ) (t : ℤ) : ℚ :=
  ∑ n ∈ Finset.range b.length, getQ b ((n : ℤ) + t) * getQ b ((n : ℤ))

/-! ### Multilateration solver

`localize_drone_enhanced` (`app.py` lines 179-228) builds, for microphones
1 and 2 against reference microphone 0, the rows
`[2(xi − x0), 2(yi − y0)] · p = xi² + yi² − x0² − y0² − di²` with
`di = tdoa_i · sound_speed`, and solves the 2×2 system with
`np.linalg.lstsq`.  The solver is generic over an ordered field so the same
definition can be run on ℚ and stated on ℝ (for irrational inputs). -/

/-- `np.linalg.lstsq` for a square 2×2 system: the minimum-norm
least-squares solution.  For invertible `A` this is `A⁻¹ b` (Cramer); for a
singular matrix (rank ≤ 1, so `A = u vᵀ`) the pseudoinverse gives
`Aᵀ b / s` with `s` the sum of the squared entries of `A` (division by zero
yielding the zero solution for `A = 0`). -/
def lstsq2 {K : Type} [Field K] [DecidableEq K] (a11 a12 a21 a22 b1 b2 : K) : K × K :=
  let det := a11 * a22 - a12 * a21
  if det = 0 then
    let s := a11 ^ 2 + a12 ^ 2 + a21 ^ 2 + a22 ^ 2
    ((a11 * b1 + a21 * b2) / s, (a12 * b1 + a22 * b2) / s)
  else
    ((b1 * a22 - b2 * a12) / det, (a11 * b2 - a21 * b1) / det)

/-- The raw least-squares position computed by `localize_drone_enhanced`
before its bounding-box check (`app.py` lines 192-213). -/
def rawSolve {K : Type} [Field K] [DecidableEq K]
    (tdoas : List K) (mics : List (K × K)) (soundSpeed : K) : K × K :=
  let p0 := mics.getD 0 (0, 0)
  let p1 := mics.getD 1 (0, 0)
  let p2 := mics.getD 2 (0, 0)
  let d1 := tdoas.getD 0 0 * soundSpeed
  let d2 := tdoas.getD 1 0 * soundSpeed
  lstsq2 (2 * (p1.1 - p0.1)) (2 * (p1.2 - p0.2))
         (2 * (p2.1 - p0.1)) (2 * (p2.2 - p0.2))
         (p1.1 ^ 2 + p1.2 ^ 2 - p0.1 ^ 2 - p0.2 ^ 2 - d1 ^ 2)
         (p2.1 ^ 2 + p2.2 ^ 2 - p0.1 ^ 2 - p0.2 ^ 2 - d2 ^ 2)

/-- `localize_drone_enhanced(tdoas, mic_positions, sound_speed)`
(`app.py` lines 179-228): rejects TDOA vectors that are not length 2
(or too few microphones, which would raise an index error caught by the
handler); solves the linear system; and if either solved coordinate lies
outside ±10 it replaces the result by the default point `[1.0, 1.0]` —
returned through the same success path as a genuine solve. -/
def localize_drone_enhanced {K : Type} [LinearOrderedField K] [DecidableEq K]
    (tdoas : List K) (mics : List (K × K)) (soundSpeed : K) : Except String (K × K) :=
  if tdoas.length ≠ 2 then .error "Invalid TDOA data"
  else if mics.length < 3 then .error "index out of bounds"
  else
    let pos := rawSolve tdoas mics soundSpeed
    if pos.1 < -10 ∨ pos.1 > 10 ∨ pos.2 < -10 ∨ pos.2 > 10 then .ok (1, 1)
    else .ok pos

/-- Concrete 3-channel array whose raw channel-1/2 delay is a full second:
the reference spike is 2 samples before the other channels' spike and the
sample rate is 2 Hz. -/
def spikeAudio : Audio2D :=
  ⟨[[1, 0, 0], [0, 0, 1], [0, 0, 1]], 3, by decide⟩

/-- Concrete 4-channel array (all channels identical singletons). -/
def fourChannelAudio : Audio2D :=
  ⟨[[1], [1], [1], [1]], 1, by decide⟩

/-- Concrete 2-channel array. -/
def twoChannelAudio : Audio2D :=
  ⟨[[1, 2], [1, 2]], 2, by decide⟩

/-- Concrete 3-channel array whose channels are identical and nonzero. -/
def identAudio : Audio2D :=
  ⟨[[1, 2], [1, 2], [1, 2]], 2, by decide⟩

/-! ### Feature extraction (`audio_processor.py`)

`extract_features` pads or truncates the waveform to exactly 3 s, computes
a magnitude spectrogram (`scipy.signal.spectrogram`, window 1024, overlap
768), warps it through a 64-band mel filter bank, converts to dB, resizes
the time axis to exactly 259 frames, normalizes, and replicates to three
identical channels.  The transcendental kernels (the windowed-DFT
magnitude, `log10`, `10**x`, `sqrt`) are supplied by an opaque oracle: no
claim in scope depends on their values, only on shapes and on the identity
of the three channels. -/

/-- The opaque numeric kernels of the DSP chain: `stft frame bin` is the
windowed-DFT magnitude of one analysis frame at one frequency bin. -/
structure DSPOracle where
  stft : List ℚ → ℕ → ℚ
  log10 : ℚ → ℚ
  pow10 : ℚ → ℚ
  sqrt : ℚ → ℚ

/-- `preprocess_audio` (`audio_processor.py` lines 49-56): zero-pad or
truncate to exactly `int(sr * 3.0)` samples. -/
def preprocess_audio (y : List ℚ) (sr : ℕ) : List ℚ :=
  if y.length < 3 * sr then y ++ List.replicate (3 * sr - y.length) 0
  else y.take (3 * sr)

/-- `scipy.signal.spectrogram(y, fs=sr, nperseg=1024, noverlap=768)`,
modelled on scipy's documented behaviour: `nperseg` is clamped to the
signal length (with a warning), a `ValueError` is raised when
`noverlap >= nperseg`, the frame count is
`(len - noverlap) // (nperseg - noverlap)`, `nfft = nperseg` gives
`nperseg / 2 + 1` one-sided frequency rows, and each entry is the windowed
DFT magnitude of its frame — opaque here (`o.stft`). -/
def spectrogram (o : DSPOracle) (y : List ℚ) : Except String (List (List ℚ)) :=
  if min 1024 y.length ≤ 768 then .error "noverlap must be less than nperseg."
  else
    .ok ((List.range (min 1024 y.length / 2 + 1)).map fun (bin : ℕ) =>
      (List.range ((y.length - 768) / (min 1024 y.length - 768))).map fun (t : ℕ) =>
        o.stft ((y.drop (t * (min 1024 y.length - 768))).take (min 1024 y.length)) bin)

/-- `hz_to_mel` (`audio_processor.py` line 161). -/
def hz_to_mel (o : DSPOracle) (f : ℚ) : ℚ := 2595 * o.log10 (1 + f / 700)

/-- `mel_to_hz` (`audio_processor.py` line 165). -/
def mel_to_hz (o : DSPOracle) (m : ℚ) : ℚ := 700 * (o.pow10 (m / 2595) - 1)

/-- `np.linspace(a, b, n)` over ℚ. -/
def linspaceQ (a b : ℚ) (n : ℕ) : List ℚ :=
  (List.range n).map fun (i : ℕ) => a + (b - a) * (i : ℚ) / ((n : ℚ) - 1)

/-- The Hz positions of the `n_mels + 2` mel-spaced points
(`audio_processor.py` lines 131-138). -/
def melHzPoints (o : DSPOracle) (sr : ℕ) (n_mels : ℕ) : List ℚ :=
  (linspaceQ (hz_to_mel o 0) (hz_to_mel o ((sr : ℚ) / 2)) (n_mels + 2)).map
    (mel_to_hz o)

/-- `fft_bins = np.floor((n_fft_bins + 1) * hz_points / sr)`
(`audio_processor.py` line 140). -/
def melFftBins (o : DSPOracle) (sr : ℕ) (n_mels n_fft_bins : ℕ) : List ℤ :=
  (melHzPoints o sr n_mels).map fun h => ⌊((n_fft_bins : ℚ) + 1) * h / (sr : ℚ)⌋

/-- One triangular filter row (`audio_processor.py` lines 144-151): rises
linearly on `[left, center)`, falls on `[center, right)`, and is all zero
for a degenerate (non-increasing) bin triple. -/
def triangleRow (left center right : ℤ) (n_fft_bins : ℕ) : List ℚ :=
  (List.range n_fft_bins).map fun (j : ℕ) =>
    if left < center ∧ center < right then
      if left ≤ (j : ℤ) ∧ (j : ℤ) < center then
        ((j : ℚ) - (left : ℚ)) / ((center : ℚ) - 1 - (left : ℚ))
      else if center ≤ (j : ℤ) ∧ (j : ℤ) < right then
        1 - ((j : ℚ) - (center : ℚ)) / ((right : ℚ) - 1 - (center : ℚ))
      else 0
    else 0

/-- `create_mel_filterbank` (`audio_processor.py` lines 129-157):
triangular filters scaled row-wise by `enorm = 2 / (hz[i+2] - hz[i])`. -/
def create_mel_filterbank (o : DSPOracle) (sr : ℕ) (n_mels n_fft_bins : ℕ) :
    List (List ℚ) :=
  List.zipWith (fun row e => row.map fun v => e * v)
    ((List.range n_mels).map fun (i : ℕ) =>
      triangleRow ((melFftBins o sr n_mels n_fft_bins).getD i 0)
        ((melFftBins o sr n_mels n_fft_bins).getD (i + 1) 0)
        ((melFftBins o sr n_mels n_fft_bins).getD (i + 2) 0) n_fft_bins)
    ((List.range n_mels).map fun (i : ℕ) =>
      2 / ((melHzPoints o sr n_mels).getD (i + 2) 0 -
        (melHzPoints o sr n_mels).getD i 0))

/-- `linear_to_mel` (`audio_processor.py` lines 123-127):
`np.dot(mel_filters, spectrogram)`. -/
def linear_to_mel (o : DSPOracle) (Sxx : List (List ℚ)) (sr : ℕ) (n_mels : ℕ) :
    List (List ℚ) :=
  (create_mel_filterbank o sr n_mels Sxx.length).map fun frow =>
    (List.range (Sxx.headD []).length).map fun (t : ℕ) =>
      ∑ bIdx ∈ Finset.range Sxx.length, frow.getD bIdx 0 * (Sxx.getD bIdx []).getD t 0

/-- Clamped read used by the order-1 interpolation. -/
def getClampQ (row : List ℚ) (i : ℤ) : ℚ :=
  row.getD (min i.toNat (row.length - 1)) 0

/-- `scipy.ndimage.zoom(..., order=1)` output width:
`round(current * (target / current))`. -/
def zoomWidth (current target : ℕ) : ℕ :=
  (round ((current : ℚ) * ((target : ℚ) / (current : ℚ)))).toNat

/-- One row of the order-1 (linear-interpolation) zoom. -/
def zoomRow (row : List ℚ) (outW : ℕ) : List ℚ :=
  (List.range outW).map fun (j : ℕ) =>
    (1 - ((j : ℚ) * ((row.length : ℚ) - 1) / ((outW : ℚ) - 1) -
        (⌊(j : ℚ) * ((row.length : ℚ) - 1) / ((outW : ℚ) - 1)⌋ : ℚ))) *
      getClampQ row ⌊(j : ℚ) * ((row.length : ℚ) - 1) / ((outW : ℚ) - 1)⌋ +
    ((j : ℚ) * ((row.length : ℚ) - 1) / ((outW : ℚ) - 1) -
        (⌊(j : ℚ) * ((row.length : ℚ) - 1) / ((outW : ℚ) - 1)⌋ : ℚ)) *
      getClampQ row (⌊(j : ℚ) * ((row.length : ℚ) - 1) / ((outW : ℚ) - 1)⌋ + 1)

/-- `resize_to_target` (`audio_processor.py` lines 100-121): no-op when the
width already matches; otherwise zoom by `target / current`, then truncate
any excess columns or pad by repeating the last column, guaranteeing
exactly `target` frames. -/
def resize_to_target (mat : List (List ℚ)) (target : ℕ) : List (List ℚ) :=
  if (mat.headD []).length = target then mat
  else if target < zoomWidth (mat.headD []).length target then
    (mat.map fun row => zoomRow row (zoomWidth (mat.headD []).length target)).map
      (List.take target)
  else if zoomWidth (mat.headD []).length target < target then
    (mat.map fun row => zoomRow row (zoomWidth (mat.headD []).length target)).map
      fun row => row ++ List.replicate (target - row.length) (row.getLastD 0)
  else mat.map fun row => zoomRow row (zoomWidth (mat.headD []).length target)

/-- Total of all entries of a matrix. -/
def matSum (mat : List (List ℚ)) : ℚ :=
  (mat.map fun r => r.foldr (· + ·) 0).foldr (· + ·) 0

/-- Number of entries of a matrix. -/
def matCount (mat : List (List ℚ)) : ℕ :=
  (mat.map List.length).foldr (· + ·) 0

/-- `mat.mean()`. -/
def matMean (mat : List (List ℚ)) : ℚ := matSum mat / (matCount mat : ℚ)

/-- `mat.std()` (via the sqrt oracle). -/
def matStd (o : DSPOracle) (mat : List (List ℚ)) : ℚ :=
  o.sqrt ((mat.map fun r => (r.map fun v => (v - matMean mat) ^ 2).foldr (· + ·) 0).foldr
    (· + ·) 0 / (matCount mat : ℚ))

/-- `(mel_db - mel_db.mean()) / (mel_db.std() + 1e-8)`
(`audio_processor.py` line 88). -/
def normalizeMat (o : DSPOracle) (mat : List (List ℚ)) : List (List ℚ) :=
  mat.map fun r => r.map fun v => (v - matMean mat) / (matStd o mat + 1 / 100000000)

/-- The dB-scaled mel spectrogram `10 * log10(mel + 1e-10)`
(`audio_processor.py` lines 76-79). -/
def mel_db_of (o : DSPOracle) (Sxx : List (List ℚ)) (sr : ℕ) : List (List ℚ) :=
  (linear_to_mel o Sxx sr 64).map fun r => r.map fun v =>
    10 * o.log10 (v + 1 / 10000000000)

/-- The width-corrected features (`audio_processor.py` lines 81-85): resize
only when the frame count differs from the expected 259. -/
def sized_of (o : DSPOracle) (Sxx : List (List ℚ)) (sr : ℕ) : List (List ℚ) :=
  if ((mel_db_of o Sxx sr).headD []).length ≠ 259 then
    resize_to_target (mel_db_of o Sxx sr) 259
  else mel_db_of o Sxx sr

/-- `extract_features` (`audio_processor.py` lines 58-98): preprocess,
spectrogram, mel warp, dB, exact-width correction, normalization, and
replication to 3 identical channels. -/
def extract_features (o : DSPOracle) (y : List ℚ) (sr : ℕ) :
    Except String (List (List (List ℚ))) :=
  (spectrogram o (preprocess_audio y sr)).map fun Sxx =>
    [normalizeMat o (sized_of o Sxx sr), normalizeMat o (sized_of o Sxx sr),
      normalizeMat o (sized_of o Sxx sr)]

/-- A concrete all-zero oracle (for evaluating the failure path). -/
def zeroOracle : DSPOracle :=
  ⟨fun _ _ => 0, fun _ => 0, fun _ => 0, fun _ => 0⟩

/-! ### Classifier output and long-audio segmentation

`model_loader.predict` runs the CNN (an external oracle), applies a
two-class softmax and packages the result; `analyze_long_audio`
(`app.py` lines 230-285) slides a 3 s window with 50 % hop over a long
recording, classifies each window and aggregates. -/

/-- The fields of the dictionary returned by `predict` that
`analyze_long_audio` consumes. -/
structure PredictOut where
  is_drone : Bool
  confidence : ℚ
  prob_drone : ℚ
deriving DecidableEq

/-- One entry of the `segments` list built by `analyze_long_audio`. -/
structure SegmentInfo where
  start_time : ℚ
  end_time : ℚ
  confidence : ℚ
  is_drone : Bool
  probability : ℚ
deriving DecidableEq

/-- The dictionary returned by `analyze_long_audio` (detection summary
fields inlined). -/
structure LongAudioResult where
  detected : Bool
  confidence : ℚ
  best_segment : Option SegmentInfo
  segments : List SegmentInfo
  total_segments : ℕ
  detected_segments : ℕ
  max_confidence : ℚ
deriving DecidableEq

/-- `predict` (`model_loader.py` lines 93-137), modelled on the two softmax
class probabilities `(p0, p1)` produced by the external CNN oracle (for a
real softmax these satisfy `p0 + p1 = 1` and are nonnegative):
`confidence` is `torch.max` over the probabilities and `is_drone` compares
the drone probability against the threshold. -/
def predict (p0 p1 threshold : ℚ) : PredictOut :=
  { is_drone := if threshold ≤ p1 then true else false
    confidence := max p0 p1
    prob_drone := p1 }

/-- The window start offsets scanned by `analyze_long_audio`:
`range(0, total_samples - segment_samples, hop_size)` —
note the exclusive stop. -/
def segmentStarts (total seg hop : ℕ) : List ℕ :=
  (List.range ((total - seg + hop - 1) / hop)).map (· * hop)

/-- Processing of one window in `analyze_long_audio`'s loop: slice the
audio, run feature extraction plus classification (the `classify` oracle,
which can fail), and record the segment dictionary.  A failure propagates
out of the loop — there is no per-segment handler in the source. -/
def mkSegment (audio : List ℚ) (sr seg : ℕ)
    (classify : List ℚ → Except String PredictOut) (s : ℕ) :
    Except String SegmentInfo := do
  let r ← classify ((audio.drop s).take seg)
  pure { start_time := (s : ℚ) / (sr : ℚ)
         end_time := ((s + seg : ℕ) : ℚ) / (sr : ℚ)
         confidence := r.confidence
         is_drone := r.is_drone
         probability := r.prob_drone }

/-- The aggregation at the end of `analyze_long_audio`'s loop: running
maximum of confidences with strict improvement (first best window wins
ties), overall detection from the maximum confidence, and the count of
individually positive windows. -/
def aggregate (threshold : ℚ) (segments : List SegmentInfo) : LongAudioResult :=
  let best := segments.foldl
    (fun acc sg => if acc.1 < sg.confidence then (sg.confidence, some sg) else acc)
    ((0 : ℚ), (none : Option SegmentInfo))
  { detected := if threshold ≤ best.1 then true else false
    confidence := best.1
    best_segment := best.2
    segments := segments
    total_segments := segments.length
    detected_segments := segments.countP (·.is_drone)
    max_confidence := best.1 }

/-- `analyze_long_audio(audio_data, sr, threshold)` (`app.py` lines
230-285): 3 s windows, 50 % hop, per-window classification via the
`classify` oracle, then aggregation of the per-window results. -/
def analyze_long_audio (audio : List ℚ) (sr : ℕ) (threshold : ℚ)
    (classify : List ℚ → Except String PredictOut) :
    Except String LongAudioResult :=
  let seg := 3 * sr
  let hop := 3 * sr / 2
  if hop = 0 then .error "range() arg 3 must not be zero"
  else
    ((segmentStarts audio.length seg hop).mapM
      (mkSegment audio sr seg classify)).map (aggregate threshold)

/-- A classifier oracle returning a fixed nondescript result. -/
def constClassifier : List ℚ → Except String PredictOut :=
  fun _ => .ok ⟨false, 1 / 2, 1 / 2⟩

/-- A 12-second waveform at 2 Hz. -/
def audio12s : List ℚ := List.replicate 24 1

/-- A 12-second waveform at 2 Hz whose sample at index 3 (the first sample
of the second analysis window) is marked with the value 5. -/
def audioBad : List ℚ :=
  [1, 1, 1, 5, 1, 1, 1, 1, 1, 1, 1, 1, 1, 1, 1, 1, 1, 1, 1, 1, 1, 1, 1, 1]

/-- A classifier oracle that fails exactly on windows whose first sample is
5 (a feature-extraction failure on that window). -/
def flakyClassifier : List ℚ → Except String PredictOut :=
  fun l => if l.headD 0 = 5 then .error "Feature extraction failed"
           else .ok ⟨false, 1 / 2, 1 / 2⟩

/-- A classifier oracle built from `predict` with constant softmax output
`(4/5, 1/5)`: confidently non-drone. -/
def nonDroneClassifier : List ℚ → Except String PredictOut :=
  fun _ => .ok (predict (4 / 5) (1 / 5) (7 / 10))

end DroneDet

namespace DroneDet

/-- Evaluation rule: reading the empty zero-padded signal gives 0. -/
@[simp] theorem getQ_nil (i : ℤ) : getQ [] i = 0 := by
  simp [getQ]

/-- Evaluation rule for zero-padded reads of a nonempty signal. -/
@[simp] theorem getQ_cons (x : ℚ) (xs : List ℚ) (i : ℤ) :
    getQ (x :: xs) i = if i = 0 then x else getQ xs (i - 1) := by
  unfold getQ
  rcases lt_trichotomy i 0 with h | h | h
  · rw [if_neg (by omega), if_neg (by omega), if_neg (by omega)]
  · subst h; simp
  · rw [if_pos (by omega), if_neg (by omega), if_pos (by omega)]
    have h1 : i.toNat = (i - 1).toNat + 1 := by omega
    rw [h1, List.getD_cons_succ]

/-- Each clamped delay is small in magnitude or exactly zero (case split on
the clamp in `calculate_tdoa_enhanced`). -/
theorem clampedTdoa_small_or_zero (ref ch : List ℚ) (sr : ℚ) :
    |clampedTdoa ref ch sr| ≤ 2 / 343 ∨ clampedTdoa ref ch sr = 0 := by
  unfold clampedTdoa
  by_cases hc : maxPhysicalDelay < |rawTdoa ref ch sr|
  · right; simp [hc]
  · left
    simp only [hc, if_false]
    simpa [maxPhysicalDelay] using not_lt.mp hc

/-- Claim C7: every delay in the TDOA vector returned by
`calculate_tdoa_enhanced` either has magnitude at most
`2 m / 343 m/s` seconds or equals 0.0 — delays whose refined magnitude
exceeds the physical bound are clamped to exactly 0.0. -/
theorem tdoa_delays_clamped (audio : Audio2D) (sr : ℚ) (td : List ℚ)
    (h : calculate_tdoa_enhanced audio sr = .ok td) :
    ∀ t ∈ td, |t| ≤ 2 / 343 ∨ t = 0 := by
  intro t ht
  unfold calculate_tdoa_enhanced at h
  by_cases h3 : audio.cols.length < 3
  · simp [h3] at h
  · simp only [h3, if_false, Except.ok.injEq] at h
    subst h
    simp only [List.mem_map] at ht
    obtain ⟨i, _, hi⟩ := ht
    subst hi
    exact clampedTdoa_small_or_zero _ _ _

/-- Witness for C7 at a concrete input: the spike array's raw delay is a
full second (lag −2 at 2 Hz), which exceeds `2/343` and is returned as 0. -/
theorem tdoa_delays_clamped_witness :
    calculate_tdoa_enhanced spikeAudio 2 = .ok [0, 0] ∧
      rawTdoa [1, 0, 0] [0, 0, 1] 2 = -1 ∧
      ∀ t ∈ [(0 : ℚ), 0], |t| ≤ 2 / 343 ∨ t = 0 := by
  have hcorr : correlateFull [1, 0, 0] [0, 0, 1] = [1, 0, 0, 0, 0] := by
    norm_num [correlateFull, Finset.sum_range_succ, List.range_succ]
  have hraw : rawTdoa [1, 0, 0] [0, 0, 1] 2 = -1 := by
    norm_num [rawTdoa, refinedPeak, hcorr, argmaxAbs, argmaxFrom]
  have hok : calculate_tdoa_enhanced spikeAudio 2 = .ok [0, 0] := by
    have hcl : clampedTdoa [1, 0, 0] [0, 0, 1] 2 = 0 := by
      rw [clampedTdoa, hraw]
      norm_num [maxPhysicalDelay]
    norm_num [calculate_tdoa_enhanced, spikeAudio, maxAbs2D, maxAbsList,
      max_def, hcl]
  exact ⟨hok, hraw, tdoa_delays_clamped spikeAudio 2 [0, 0] hok⟩

/-- Counterexample to claim C9: a 4-channel waveform yields a TDOA vector
with 2 entries, not `channels − 1 = 3`. -/
theorem tdoa_count_cex :
    fourChannelAudio.cols.length = 4 ∧
      (calculate_tdoa_enhanced fourChannelAudio 1).map List.length = .ok 2 ∧
      (2 : ℕ) ≠ 4 - 1 := by
  refine ⟨by decide, ?_, by decide⟩
  norm_num [calculate_tdoa_enhanced, fourChannelAudio, Except.map]

/-- Claim C9 (amended): for every waveform with at least 3 channels the
TDOA estimator returns exactly 2 delay values (channels 1 and 2 against
the reference, regardless of any further channels); with fewer than 3
channels it returns the insufficient-channels error. -/
theorem tdoa_channel_contract (audio : Audio2D) (sr : ℚ) :
    (3 ≤ audio.cols.length →
      ∃ td, calculate_tdoa_enhanced audio sr = .ok td ∧ td.length = 2) ∧
    (audio.cols.length < 3 →
      calculate_tdoa_enhanced audio sr =
        .error ("Audio must have at least 3 channels. Got "
                ++ toString audio.cols.length ++ " channels")) := by
  constructor
  · intro h3
    unfold calculate_tdoa_enhanced
    rw [if_neg (Nat.not_lt.mpr h3)]
    exact ⟨_, rfl, by simp⟩
  · intro h3
    unfold calculate_tdoa_enhanced
    rw [if_pos h3]

/-- Witness for C9 (amended) at concrete inputs: the 4-channel array gets a
2-entry vector, the 2-channel array gets the error. -/
theorem tdoa_channel_contract_witness :
    (∃ td, calculate_tdoa_enhanced fourChannelAudio 1 = .ok td ∧ td.length = 2) ∧
      calculate_tdoa_enhanced twoChannelAudio 1 =
        .error "Audio must have at least 3 channels. Got 2 channels" := by
  constructor
  · exact (tdoa_channel_contract fourChannelAudio 1).1 (by decide)
  · exact (tdoa_channel_contract twoChannelAudio 1).2 (by decide)

/-- Claim C1: with microphones `(0,0), (1/2,0), (0,1/2)` and a source at
`(1,1)`, the analytically derived TDOAs
`(‖src − mic_i‖ − ‖src − mic_0‖)/343` make the solver return
`(2√(5/2) − 3, 2√(5/2) − 3) ≈ (0.162, 0.162)`, whose first coordinate is
more than 0.05 (indeed more than 0.8) away from 1 — the claimed recovery of
`(1,1)` within 0.05 m fails, because the code's linearization drops the
`2·d_i·‖p − mic_0‖` cross term of the hyperbolic equation documented in
its own comment. -/
theorem localize_linearization_bug :
    localize_drone_enhanced
        [(Real.sqrt ((1 - 1 / 2) ^ 2 + (1 - 0) ^ 2) -
            Real.sqrt ((1 - 0) ^ 2 + (1 - 0) ^ 2)) / 343,
          (Real.sqrt ((1 - 0) ^ 2 + (1 - 1 / 2) ^ 2) -
            Real.sqrt ((1 - 0) ^ 2 + (1 - 0) ^ 2)) / 343]
        [((0 : ℝ), 0), (1 / 2, 0), (0, 1 / 2)] 343 =
      .ok (2 * Real.sqrt (5 / 2) - 3, 2 * Real.sqrt (5 / 2) - 3) ∧
      4 / 5 < |2 * Real.sqrt (5 / 2) - 3 - 1| := by
  have e1 : ((1 : ℝ) - 1 / 2) ^ 2 + (1 - 0) ^ 2 = 5 / 4 := by norm_num
  have e2 : ((1 : ℝ) - 0) ^ 2 + (1 - 1 / 2) ^ 2 = 5 / 4 := by norm_num
  have e3 : ((1 : ℝ) - 0) ^ 2 + (1 - 0) ^ 2 = 2 := by norm_num
  have hs1 : Real.sqrt (5 / 4) * Real.sqrt 2 = Real.sqrt (5 / 2) := by
    rw [← Real.sqrt_mul (by norm_num)]; norm_num
  have hd2 : (Real.sqrt (5 / 4) - Real.sqrt 2) ^ 2 = 13 / 4 - 2 * Real.sqrt (5 / 2) := by
    have q1 : Real.sqrt (5 / 4) ^ 2 = 5 / 4 := Real.sq_sqrt (by norm_num)
    have q2 : Real.sqrt 2 ^ 2 = 2 := Real.sq_sqrt (by norm_num)
    have expand : (Real.sqrt (5 / 4) - Real.sqrt 2) ^ 2 =
        Real.sqrt (5 / 4) ^ 2 + Real.sqrt 2 ^ 2 -
          2 * (Real.sqrt (5 / 4) * Real.sqrt 2) := by ring
    rw [expand, q1, q2, hs1]
    ring
  have hlo : (3 : ℝ) / 2 < Real.sqrt (5 / 2) :=
    (Real.lt_sqrt (by norm_num : (0 : ℝ) ≤ 3 / 2)).mpr
      (by norm_num : ((3 : ℝ) / 2) ^ 2 < 5 / 2)
  have hhi : Real.sqrt (5 / 2) < 8 / 5 :=
    (Real.sqrt_lt' (by norm_num : (0 : ℝ) < 8 / 5)).mpr (by norm_num)
  have hraw :
      rawSolve
          [(Real.sqrt (5 / 4) - Real.sqrt 2) / 343,
            (Real.sqrt (5 / 4) - Real.sqrt 2) / 343]
          [((0 : ℝ), 0), (1 / 2, 0), (0, 1 / 2)] 343 =
        (2 * Real.sqrt (5 / 2) - 3, 2 * Real.sqrt (5 / 2) - 3) := by
    unfold rawSolve lstsq2
    simp only [List.getD_cons_zero, List.getD_cons_succ]
    rw [div_mul_cancel₀ _ (by norm_num : (343 : ℝ) ≠ 0)]
    rw [if_neg (by norm_num)]
    rw [hd2]
    simp only [Prod.mk.injEq]
    constructor <;> ring
  rw [e1, e2, e3]
  constructor
  · unfold localize_drone_enhanced
    rw [if_neg (by norm_num), if_neg (by norm_num)]
    rw [hraw]
    rw [if_neg ?_]
    push_neg
    refine ⟨by nlinarith, by nlinarith, by nlinarith, by nlinarith⟩
  · rw [abs_of_nonpos (by nlinarith)]
    nlinarith

/-- Claim C3 (amended): whenever the raw least-squares solution has a
coordinate outside ±10, `localize_drone_enhanced` returns the default
point `(1.0, 1.0)` — but through the very same success constructor as a
genuine solve, with no flag (cf. `localize_fallback_indistinguishable`). -/
theorem localize_oob_default (tdoas : List ℚ) (mics : List (ℚ × ℚ)) (c : ℚ)
    (h2 : tdoas.length = 2) (h3 : 3 ≤ mics.length)
    (hoob : (rawSolve tdoas mics c).1 < -10 ∨ (rawSolve tdoas mics c).1 > 10 ∨
      (rawSolve tdoas mics c).2 < -10 ∨ (rawSolve tdoas mics c).2 > 10) :
    localize_drone_enhanced tdoas mics c = .ok (1, 1) := by
  unfold localize_drone_enhanced
  rw [if_neg (by simp [h2]), if_neg (Nat.not_lt.mpr h3), if_pos hoob]

/-- Witness for C3 (amended): with microphones `(0,0), (3,0), (0,3)` the
TDOA vector `(9/343, 9/343)` solves to `(−12, −12)`, outside ±10, and the
solver returns the default `(1, 1)`. -/
theorem localize_oob_default_witness :
    rawSolve [(9 : ℚ) / 343, 9 / 343] [(0, 0), (3, 0), (0, 3)] 343 = (-12, -12) ∧
      localize_drone_enhanced [(9 : ℚ) / 343, 9 / 343] [(0, 0), (3, 0), (0, 3)] 343 =
        .ok (1, 1) := by
  have hr : rawSolve [(9 : ℚ) / 343, 9 / 343] [(0, 0), (3, 0), (0, 3)] 343 =
      (-12, -12) := by
    unfold rawSolve lstsq2
    norm_num
  refine ⟨hr, localize_oob_default _ _ _ (by norm_num) (by norm_num) ?_⟩
  rw [hr]
  norm_num

/-- Counterexample to claim C3's flagging requirement: an out-of-bounds
TDOA vector (raw solve `(−12, −12)`) and a TDOA vector that genuinely
solves to `(1, 1)` produce *identical* return values, so the caller cannot
distinguish the clamped-to-default outcome from a real solve. -/
theorem localize_fallback_indistinguishable :
    (rawSolve [(9 : ℝ) / 343, 9 / 343] [((0 : ℝ), 0), (3, 0), (0, 3)] 343).1 < -10 ∧
      rawSolve [Real.sqrt 3 / 343, Real.sqrt 3 / 343]
          [((0 : ℝ), 0), (3, 0), (0, 3)] 343 = (1, 1) ∧
      localize_drone_enhanced [(9 : ℝ) / 343, 9 / 343]
          [((0 : ℝ), 0), (3, 0), (0, 3)] 343 =
        localize_drone_enhanced [Real.sqrt 3 / 343, Real.sqrt 3 / 343]
          [((0 : ℝ), 0), (3, 0), (0, 3)] 343 := by
  have hrA : rawSolve [(9 : ℝ) / 343, 9 / 343] [((0 : ℝ), 0), (3, 0), (0, 3)] 343 =
      (-12, -12) := by
    unfold rawSolve lstsq2
    norm_num
  have hrB : rawSolve [Real.sqrt 3 / 343, Real.sqrt 3 / 343]
      [((0 : ℝ), 0), (3, 0), (0, 3)] 343 = (1, 1) := by
    unfold rawSolve lstsq2
    simp only [List.getD_cons_zero, List.getD_cons_succ]
    rw [div_mul_cancel₀ _ (by norm_num : (343 : ℝ) ≠ 0)]
    rw [if_neg (by norm_num)]
    rw [Real.sq_sqrt (by norm_num : (0 : ℝ) ≤ 3)]
    norm_num
  have hA : localize_drone_enhanced [(9 : ℝ) / 343, 9 / 343]
      [((0 : ℝ), 0), (3, 0), (0, 3)] 343 = .ok (1, 1) := by
    unfold localize_drone_enhanced
    rw [if_neg (by norm_num), if_neg (by norm_num), hrA]
    rw [if_pos (by norm_num)]
  have hB : localize_drone_enhanced [Real.sqrt 3 / 343, Real.sqrt 3 / 343]
      [((0 : ℝ), 0), (3, 0), (0, 3)] 343 = .ok (1, 1) := by
    unfold localize_drone_enhanced
    rw [if_neg (by norm_num), if_neg (by norm_num), hrB]
    rw [if_neg (by norm_num)]
  exact ⟨by rw [hrA]; norm_num, hrB, by rw [hA, hB]⟩

/-- If every element maps to a success, `mapM` over the `Except` monad
succeeds with one output per input, computed elementwise. -/
theorem mapM_ok_of_forall_ok {α β : Type} (g : α → Except String β) :
    ∀ l : List α, (∀ x ∈ l, ∃ y, g x = .ok y) →
      ∃ outs, l.mapM g = .ok outs ∧ outs.length = l.length ∧
        ∀ i (hi : i < l.length) (ho : i < outs.length),
          g (l.get ⟨i, hi⟩) = .ok (outs.get ⟨i, ho⟩)
  | [], _ => ⟨[], rfl, by simp, fun i hi => by simp at hi⟩
  | a :: l, h => by
    obtain ⟨y, hy⟩ := h a (by simp)
    obtain ⟨outs, houts, hlen, helt⟩ :=
      mapM_ok_of_forall_ok g l (fun x hx => h x (by simp [hx]))
    refine ⟨y :: outs, ?_, by simp [hlen], ?_⟩
    · rw [List.mapM_cons, hy, houts]
      rfl
    · intro i hi ho
      match i with
      | 0 => simpa using hy
      | j + 1 =>
        simpa using helt j (by simpa using hi) (by simpa using ho)

/-- If some element maps to a failure, `mapM` over the `Except` monad
fails (with the first failure encountered). -/
theorem mapM_error_of_exists {α β : Type} (g : α → Except String β) :
    ∀ l : List α, (∃ x ∈ l, ∃ e, g x = .error e) →
      ∃ e, l.mapM g = .error e
  | [], h => by simp at h
  | a :: l, h => by
    rcases ha : g a with e | y
    · exact ⟨e, by rw [List.mapM_cons, ha]; rfl⟩
    · obtain ⟨x, hx, e, hge⟩ := h
      rcases List.mem_cons.mp hx with rfl | hx
      · rw [ha] at hge; cases hge
      · obtain ⟨e', he'⟩ := mapM_error_of_exists g l ⟨x, hx, e, hge⟩
        exact ⟨e', by rw [List.mapM_cons, ha, he']; rfl⟩

/-- With an always-succeeding classifier, one window of the scan produces
the segment record with the window's own start and end times. -/
theorem mkSegment_ok (audio : List ℚ) (sr seg : ℕ)
    (classify : List ℚ → Except String PredictOut)
    (hok : ∀ l, ∃ p, classify l = .ok p) (s : ℕ) :
    ∃ info, mkSegment audio sr seg classify s = .ok info ∧
      info.start_time = (s : ℚ) / (sr : ℚ) ∧
      info.end_time = ((s + seg : ℕ) : ℚ) / (sr : ℚ) := by
  obtain ⟨p, hp⟩ := hok ((audio.drop s).take seg)
  exact ⟨⟨(s : ℚ) / (sr : ℚ), ((s + seg : ℕ) : ℚ) / (sr : ℚ),
    p.confidence, p.is_drone, p.prob_drone⟩, by rw [mkSegment, hp]; rfl, rfl, rfl⟩

/-- Counterexample to claim C2: a 12-second waveform (24 samples at the
even sample rate 2 Hz) scanned with window 3 s and hop 1.5 s produces 6
segments, not `floor((12 − 3)/1.5) + 1 = 7` — the window starting exactly
at `totalSamples − windowSamples` is dropped because the loop's `range`
stop is exclusive. -/
theorem segment_count_cex :
    (analyze_long_audio audio12s 2 (7 / 10) constClassifier).map
        (fun r => r.segments.length) = .ok 6 ∧ (6 : ℕ) ≠ 7 := by
  refine ⟨?_, by decide⟩
  have hs : segmentStarts 24 6 3 = [0, 3, 6, 9, 12, 15] := by
    simp [segmentStarts, List.range_succ]
  have hlen : audio12s.length = 24 := by simp [audio12s]
  unfold analyze_long_audio
  rw [if_neg (by norm_num)]
  rw [hlen]
  norm_num [hs, aggregate, List.mapM.loop, mkSegment, constClassifier, Bind.bind,
    Except.bind, Pure.pure, Except.pure, Except.map]

/-- Claim C2 (amended): for a 12-second waveform at any even sample rate
`2m` (so that the 1.5 s hop is a whole number of samples), the scan
produces exactly 6 segments, with the `i`-th segment starting at `1.5·i`
seconds (consecutive starts exactly 1.5 s apart), ending 3 s later, and
every segment ending at or before 12 s. -/
theorem analyze_12s_segments (m : ℕ) (hm : 1 ≤ m) (audio : List ℚ)
    (threshold : ℚ) (classify : List ℚ → Except String PredictOut)
    (hlen : audio.length = 24 * m)
    (hok : ∀ l, ∃ p, classify l = .ok p) :
    ∃ r, analyze_long_audio audio (2 * m) threshold classify = .ok r ∧
      r.segments.length = 6 ∧
      (∀ i (hi : i < r.segments.length),
        (r.segments.get ⟨i, hi⟩).start_time = 3 * (i : ℚ) / 2 ∧
        (r.segments.get ⟨i, hi⟩).end_time = 3 * (i : ℚ) / 2 + 3) ∧
      ∀ sg ∈ r.segments, sg.end_time ≤ 12 := by
  have hm0 : (m : ℚ) ≠ 0 := Nat.cast_ne_zero.mpr (by omega)
  have hhop : 3 * (2 * m) / 2 = 3 * m := by omega
  have hcount : (24 * m - 3 * (2 * m) + 3 * m - 1) / (3 * m) = 6 := by
    have h1 : 6 * (3 * m) ≤ 24 * m - 3 * (2 * m) + 3 * m - 1 := by omega
    have h2 : 24 * m - 3 * (2 * m) + 3 * m - 1 < (6 + 1) * (3 * m) := by omega
    exact Nat.div_eq_of_lt_le h1 h2
  obtain ⟨outs, houts, hlen6, helt⟩ :=
    mapM_ok_of_forall_ok (mkSegment audio (2 * m) (3 * (2 * m)) classify)
      (segmentStarts (24 * m) (3 * (2 * m)) (3 * m))
      (fun s _ => by
        obtain ⟨info, hinfo, _, _⟩ :=
          mkSegment_ok audio (2 * m) (3 * (2 * m)) classify hok s
        exact ⟨info, hinfo⟩)
  have hstartlen : (segmentStarts (24 * m) (3 * (2 * m)) (3 * m)).length = 6 := by
    unfold segmentStarts
    rw [hcount]
    simp
  have houtlen : outs.length = 6 := by rw [hlen6, hstartlen]
  have hfield : ∀ i (hi : i < outs.length),
      (outs.get ⟨i, hi⟩).start_time = 3 * (i : ℚ) / 2 ∧
      (outs.get ⟨i, hi⟩).end_time = 3 * (i : ℚ) / 2 + 3 := by
    intro i hi
    have hi' : i < (segmentStarts (24 * m) (3 * (2 * m)) (3 * m)).length := by
      rw [hstartlen, ← houtlen]; exact hi
    have hsi : (segmentStarts (24 * m) (3 * (2 * m)) (3 * m)).get ⟨i, hi'⟩ =
        i * (3 * m) := by
      unfold segmentStarts
      simp
    have hmk := helt i hi' hi
    rw [hsi] at hmk
    obtain ⟨info, hinfo, hst, hen⟩ :=
      mkSegment_ok audio (2 * m) (3 * (2 * m)) classify hok (i * (3 * m))
    rw [hinfo] at hmk
    have heq : outs.get ⟨i, hi⟩ = info := by
      injection hmk with h
      exact h.symm
    rw [heq, hst, hen]
    constructor
    · push_cast
      field_simp
      ring
    · push_cast
      field_simp
      ring
  refine ⟨aggregate threshold outs, ?_, ?_, ?_, ?_⟩
  · unfold analyze_long_audio
    rw [if_neg (by omega)]
    rw [hlen, hhop, houts]
    rfl
  · simpa [aggregate] using houtlen
  · intro i hi
    exact hfield i hi
  · intro sg hsg
    have hsg' : sg ∈ outs := hsg
    obtain ⟨⟨i, hi⟩, hget⟩ := List.mem_iff_get.mp hsg'
    obtain ⟨_, hen⟩ := hfield i hi
    have hi6 : i < 6 := by rw [← houtlen]; exact hi
    rw [← hget, hen]
    have hle : (i : ℚ) ≤ 5 := by exact_mod_cast Nat.lt_succ_iff.mp hi6
    linarith

/-- Witness for C2 (amended) at the concrete sample rate 2 Hz with a
constant classifier. -/
theorem analyze_12s_segments_witness :
    ∃ r, analyze_long_audio audio12s (2 * 1) (7 / 10) constClassifier = .ok r ∧
      r.segments.length = 6 ∧
      (∀ i (hi : i < r.segments.length),
        (r.segments.get ⟨i, hi⟩).start_time = 3 * (i : ℚ) / 2 ∧
        (r.segments.get ⟨i, hi⟩).end_time = 3 * (i : ℚ) / 2 + 3) ∧
      ∀ sg ∈ r.segments, sg.end_time ≤ 12 :=
  analyze_12s_segments 1 (by norm_num) audio12s (7 / 10) constClassifier
    (by simp [audio12s]) (fun l => ⟨⟨false, 1 / 2, 1 / 2⟩, rfl⟩)

/-- Counterexample to claim C4: with a classifier that fails only on the
window starting at sample 3, the first window still succeeds, yet the
whole scan returns that window's bare error — no per-segment record, no
aggregation of the remaining windows. -/
theorem segment_error_aborts_cex :
    mkSegment audioBad 2 6 flakyClassifier 0 = .ok ⟨0, 3, 1 / 2, false, 1 / 2⟩ ∧
      mkSegment audioBad 2 6 flakyClassifier 3 = .error "Feature extraction failed" ∧
      analyze_long_audio audioBad 2 (7 / 10) flakyClassifier =
        .error "Feature extraction failed" := by
  refine ⟨?_, ?_, ?_⟩
  · norm_num [mkSegment, audioBad, flakyClassifier, Bind.bind, Except.bind,
      Pure.pure, Except.pure]
  · norm_num [mkSegment, audioBad, flakyClassifier, Bind.bind, Except.bind,
      Pure.pure, Except.pure]
  · have hs : segmentStarts 24 6 3 = [0, 3, 6, 9, 12, 15] := by
      simp [segmentStarts, List.range_succ]
    have hlen : audioBad.length = 24 := by simp [audioBad]
    unfold analyze_long_audio
    rw [if_neg (by norm_num)]
    rw [hlen]
    norm_num [hs, aggregate, List.mapM.loop, mkSegment, audioBad, flakyClassifier,
      Bind.bind, Except.bind, Pure.pure, Except.pure, Except.map]

/-- Claim C4 (amended): an error raised while processing any segment
aborts the whole scan — `analyze_long_audio` propagates the failure to its
caller and produces no per-segment results at all. -/
theorem analyze_aborts_on_segment_error (audio : List ℚ) (sr : ℕ)
    (threshold : ℚ) (classify : List ℚ → Except String PredictOut)
    (hsr : 1 ≤ sr)
    (hfail : ∃ s ∈ segmentStarts audio.length (3 * sr) (3 * sr / 2),
      ∃ e, mkSegment audio sr (3 * sr) classify s = .error e) :
    ∃ e, analyze_long_audio audio sr threshold classify = .error e := by
  obtain ⟨e, he⟩ :=
    mapM_error_of_exists (mkSegment audio sr (3 * sr) classify)
      (segmentStarts audio.length (3 * sr) (3 * sr / 2)) hfail
  refine ⟨e, ?_⟩
  unfold analyze_long_audio
  rw [if_neg (by omega)]
  rw [he]
  rfl

/-- Witness for C4 (amended) at the concrete failing scan. -/
theorem analyze_aborts_witness :
    (∃ s ∈ segmentStarts audioBad.length (3 * 2) (3 * 2 / 2),
      ∃ e, mkSegment audioBad 2 (3 * 2) flakyClassifier s = .error e) ∧
      ∃ e, analyze_long_audio audioBad 2 (7 / 10) flakyClassifier = .error e := by
  have hlen : audioBad.length = 24 := by simp [audioBad]
  have hs : segmentStarts 24 6 3 = [0, 3, 6, 9, 12, 15] := by
    simp [segmentStarts, List.range_succ]
  have hfail : ∃ s ∈ segmentStarts audioBad.length (3 * 2) (3 * 2 / 2),
      ∃ e, mkSegment audioBad 2 (3 * 2) flakyClassifier s = .error e := by
    refine ⟨3, ?_, "Feature extraction failed", ?_⟩
    · rw [show (3 * 2 : ℕ) = 6 from rfl, show (3 * 2 / 2 : ℕ) = 3 from rfl, hlen, hs]
      simp
    · norm_num [mkSegment, audioBad, flakyClassifier, Bind.bind, Except.bind,
        Pure.pure, Except.pure]
  exact ⟨hfail,
    analyze_aborts_on_segment_error audioBad 2 (7 / 10) flakyClassifier
      (by norm_num) hfail⟩

/-- Claim C10: `predict`'s confidence is the larger of the two class
probabilities, hence at least 1/2 whenever the probabilities form a
distribution; consequently a 12-second recording whose every window is
confidently non-drone (probabilities `(4/5, 1/5)`, threshold 0.7 ≤ 4/5)
yields `detected = true` with `detected_segments = 0`. -/
theorem predict_confidence_detection :
    (∀ p0 p1 threshold : ℚ, p0 + p1 = 1 → 0 ≤ p0 → 0 ≤ p1 →
      (predict p0 p1 threshold).confidence = max p0 p1 ∧
        1 / 2 ≤ (predict p0 p1 threshold).confidence) ∧
      ∃ r, analyze_long_audio audio12s 2 (7 / 10) nonDroneClassifier = .ok r ∧
        r.detected = true ∧ r.detected_segments = 0 ∧
        ∀ sg ∈ r.segments, sg.is_drone = false := by
  constructor
  · intro p0 p1 threshold hsum h0 h1
    refine ⟨rfl, ?_⟩
    show 1 / 2 ≤ max p0 p1
    rcases le_total p0 p1 with h | h
    · rw [max_eq_right h]; linarith
    · rw [max_eq_left h]; linarith
  · have hs : segmentStarts 24 6 3 = [0, 3, 6, 9, 12, 15] := by
      simp [segmentStarts, List.range_succ]
    have hlen : audio12s.length = 24 := by simp [audio12s]
    have heval : analyze_long_audio audio12s 2 (7 / 10) nonDroneClassifier =
        .ok { detected := true
              confidence := 4 / 5
              best_segment := some ⟨0, 3, 4 / 5, false, 1 / 5⟩
              segments := [⟨0, 3, 4 / 5, false, 1 / 5⟩,
                ⟨3 / 2, 9 / 2, 4 / 5, false, 1 / 5⟩,
                ⟨3, 6, 4 / 5, false, 1 / 5⟩,
                ⟨9 / 2, 15 / 2, 4 / 5, false, 1 / 5⟩,
                ⟨6, 9, 4 / 5, false, 1 / 5⟩,
                ⟨15 / 2, 21 / 2, 4 / 5, false, 1 / 5⟩]
              total_segments := 6
              detected_segments := 0
              max_confidence := 4 / 5 } := by
      unfold analyze_long_audio
      rw [if_neg (by norm_num)]
      rw [hlen]
      norm_num [hs, aggregate, List.mapM.loop, mkSegment, nonDroneClassifier, predict,
        Bind.bind, Except.bind, Pure.pure, Except.pure, Except.map, max_def,
        List.countP, List.countP.go]
    refine ⟨_, heval, rfl, rfl, ?_⟩
    intro sg hsg
    fin_cases hsg <;> rfl

/-- Witness for C10 at concrete probabilities `(3/10, 7/10)`. -/
theorem predict_confidence_detection_witness :
    (predict (3 / 10) (7 / 10) (1 / 2)).confidence = max (3 / 10) (7 / 10) ∧
      1 / 2 ≤ (predict (3 / 10) (7 / 10) (1 / 2)).confidence :=
  predict_confidence_detection.1 (3 / 10) (7 / 10) (1 / 2) (by norm_num)
    (by norm_num) (by norm_num)

/-! ### The zero-delay identity (claim C8)

For a nonzero signal, the absolute autocorrelation has a strict maximum at
zero lag (discrete Cauchy-Schwarz with its equality case), the parabolic
refinement offset vanishes by the symmetry of the autocorrelation, and the
resulting delay is exactly zero. -/

/-- `getQ` at a natural index is a plain (default-0) list read. -/
theorem getQ_natCast (l : List ℚ) (n : ℕ) : getQ l (n : ℤ) = l.getD n 0 := by
  simp [getQ]

/-- `getQ` at a negative index is zero. -/
theorem getQ_of_neg (l : List ℚ) (z : ℤ) (h : z < 0) : getQ l z = 0 := by
  simp [getQ, not_le.mpr h]

/-- `corrS` at a nonnegative lag, written with natural indices. -/
theorem corrS_natCast (b : List ℚ) (s : ℕ) :
    corrS b (s : ℤ) =
      ∑ n ∈ Finset.range b.length, b.getD (n + s) 0 * b.getD n 0 := by
  unfold corrS
  refine Finset.sum_congr rfl fun n _ => ?_
  rw [show ((n : ℤ) + (s : ℤ)) = ((n + s : ℕ) : ℤ) by push_cast; ring,
    getQ_natCast, getQ_natCast]

/-- The zero-lag autocorrelation is the signal's energy. -/
theorem corrS_zero (b : List ℚ) :
    corrS b 0 = ∑ n ∈ Finset.range b.length, b.getD n 0 ^ 2 := by
  have h := corrS_natCast b 0
  simp only [Nat.cast_zero, Nat.add_zero] at h
  rw [h]
  exact Finset.sum_congr rfl fun n _ => by ring

/-- The autocorrelation is symmetric in the lag. -/
theorem corrS_neg (b : List ℚ) (s : ℕ) :
    corrS b (-(s : ℤ)) = corrS b (s : ℤ) := by
  have hL : corrS b (-(s : ℤ)) =
      ∑ n ∈ Finset.Ico s b.length, b.getD (n - s) 0 * b.getD n 0 := by
    unfold corrS
    have hsub : Finset.Ico s b.length ⊆ Finset.range b.length := by
      intro n hn
      simp only [Finset.mem_Ico] at hn
      exact Finset.mem_range.mpr hn.2
    have hzero : ∀ n ∈ Finset.range b.length, n ∉ Finset.Ico s b.length →
        getQ b ((n : ℤ) + -(s : ℤ)) * getQ b ((n : ℤ)) = 0 := by
      intro n hn hn'
      simp only [Finset.mem_range] at hn
      simp only [Finset.mem_Ico, not_and, not_lt] at hn'
      have hns : n < s := by
        by_contra hge
        exact absurd (hn' (not_lt.mp hge)) (not_le.mpr hn)
      rw [getQ_of_neg _ _ (by omega), zero_mul]
    rw [(Finset.sum_subset hsub hzero).symm]
    refine Finset.sum_congr rfl fun n hn => ?_
    simp only [Finset.mem_Ico] at hn
    rw [show ((n : ℤ) + -(s : ℤ)) = ((n - s : ℕ) : ℤ) by omega,
      getQ_natCast, getQ_natCast]
  have hR : corrS b (s : ℤ) =
      ∑ n ∈ Finset.Ico s b.length, b.getD (n - s) 0 * b.getD n 0 := by
    have hsub : Finset.range (b.length - s) ⊆ Finset.range b.length := by
      intro k hk
      simp only [Finset.mem_range] at hk ⊢
      omega
    have hzero : ∀ k ∈ Finset.range b.length, k ∉ Finset.range (b.length - s) →
        b.getD (k + s) 0 * b.getD k 0 = 0 := by
      intro k hk hk'
      simp only [Finset.mem_range] at hk hk'
      rw [List.getD_eq_default _ _ (by omega), zero_mul]
    rw [corrS_natCast, Finset.sum_Ico_eq_sum_range,
      (Finset.sum_subset hsub hzero).symm]
    refine Finset.sum_congr rfl fun k _ => ?_
    rw [show s + k - s = k by omega, show s + k = k + s by omega]
    ring
  rw [hL, hR]

/-- The energy of the shifted signal is at most the energy of the signal
(the shift pushes part of the support past the end of the window). -/
theorem sum_sq_shift_le (b : List ℚ) (s : ℕ) :
    ∑ n ∈ Finset.range b.length, b.getD (n + s) 0 ^ 2 ≤
      ∑ n ∈ Finset.range b.length, b.getD n 0 ^ 2 := by
  have hsub : Finset.range (b.length - s) ⊆ Finset.range b.length := by
    intro k hk
    simp only [Finset.mem_range] at hk ⊢
    omega
  have hzero : ∀ k ∈ Finset.range b.length, k ∉ Finset.range (b.length - s) →
      b.getD (k + s) 0 ^ 2 = 0 := by
    intro k hk hk'
    simp only [Finset.mem_range] at hk hk'
    rw [List.getD_eq_default _ _ (by omega)]
    ring
  rw [(Finset.sum_subset hsub hzero).symm]
  calc ∑ n ∈ Finset.range (b.length - s), b.getD (n + s) 0 ^ 2
      = ∑ n ∈ Finset.Ico s b.length, b.getD n 0 ^ 2 := by
        rw [Finset.sum_Ico_eq_sum_range]
        refine Finset.sum_congr rfl fun k _ => ?_
        rw [show s + k = k + s by omega]
    _ ≤ ∑ n ∈ Finset.range b.length, b.getD n 0 ^ 2 := by
        refine Finset.sum_le_sum_of_subset_of_nonneg ?_ fun n _ _ => sq_nonneg _
        intro n hn
        simp only [Finset.mem_Ico] at hn
        exact Finset.mem_range.mpr hn.2

/-- Strict Cauchy-Schwarz for a nonzero signal against its own nonzero
shift: the absolute lag-`s` autocorrelation is strictly below the energy. -/
theorem corr_abs_lt_energy (b : List ℚ) (s : ℕ) (hs : 1 ≤ s)
    (hnz : ∃ n, n < b.length ∧ b.getD n 0 ≠ 0) :
    |∑ n ∈ Finset.range b.length, b.getD (n + s) 0 * b.getD n 0| <
      ∑ n ∈ Finset.range b.length, b.getD n 0 ^ 2 := by
  set N := b.length with hNdef
  set S := ∑ n ∈ Finset.range N, b.getD n 0 ^ 2 with hSdef
  set C := ∑ n ∈ Finset.range N, b.getD (n + s) 0 * b.getD n 0 with hCdef
  set D := ∑ n ∈ Finset.range N, b.getD (n + s) 0 ^ 2 with hDdef
  have hD : D ≤ S := sum_sq_shift_le b s
  have hplus : ∑ n ∈ Finset.range N, (b.getD (n + s) 0 - b.getD n 0) ^ 2 =
      D - 2 * C + S := by
    rw [hDdef, hCdef, hSdef, Finset.mul_sum, ← Finset.sum_sub_distrib,
      ← Finset.sum_add_distrib]
    exact Finset.sum_congr rfl fun n _ => by ring
  have hminus : ∑ n ∈ Finset.range N, (b.getD (n + s) 0 + b.getD n 0) ^ 2 =
      D + 2 * C + S := by
    rw [hDdef, hCdef, hSdef, Finset.mul_sum, ← Finset.sum_add_distrib,
      ← Finset.sum_add_distrib]
    exact Finset.sum_congr rfl fun n _ => by ring
  have hplus0 : 0 ≤ ∑ n ∈ Finset.range N, (b.getD (n + s) 0 - b.getD n 0) ^ 2 :=
    Finset.sum_nonneg fun n _ => sq_nonneg _
  have hminus0 : 0 ≤ ∑ n ∈ Finset.range N, (b.getD (n + s) 0 + b.getD n 0) ^ 2 :=
    Finset.sum_nonneg fun n _ => sq_nonneg _
  have hS0 : 0 ≤ S := Finset.sum_nonneg fun n _ => sq_nonneg _
  have hCle : C ≤ S := by
    rw [hplus] at hplus0
    linarith
  have hCge : -S ≤ C := by
    rw [hminus] at hminus0
    linarith
  set M := (Finset.range N).filter (fun n => b.getD n 0 ≠ 0) with hMdef
  have hMne : M.Nonempty := by
    obtain ⟨n, hnN, hn0⟩ := hnz
    exact ⟨n, Finset.mem_filter.mpr ⟨Finset.mem_range.mpr hnN, hn0⟩⟩
  have hn₀M : M.max' hMne ∈ M := M.max'_mem hMne
  set n₀ := M.max' hMne with hn₀def
  have hn₀N : n₀ < N := Finset.mem_range.mp (Finset.mem_filter.mp hn₀M).1
  have hn₀0 : b.getD n₀ 0 ≠ 0 := (Finset.mem_filter.mp hn₀M).2
  have hshift : b.getD (n₀ + s) 0 = 0 := by
    by_contra h0
    have hlt : n₀ + s < N := by
      by_contra hge
      exact h0 (List.getD_eq_default _ _ (by omega))
    have hmem : n₀ + s ∈ M :=
      Finset.mem_filter.mpr ⟨Finset.mem_range.mpr hlt, h0⟩
    have := Finset.le_max' M _ hmem
    omega
  have hne1 : C ≠ S := by
    intro hCS
    have hsum0 : ∑ n ∈ Finset.range N, (b.getD (n + s) 0 - b.getD n 0) ^ 2 = 0 :=
      le_antisymm (by rw [hplus, hCS]; linarith) hplus0
    have hall := (Finset.sum_eq_zero_iff_of_nonneg fun n _ => sq_nonneg _).mp hsum0
    have h0 := sub_eq_zero.mp (sq_eq_zero_iff.mp (hall n₀ (Finset.mem_range.mpr hn₀N)))
    rw [hshift] at h0
    exact hn₀0 h0.symm
  have hne2 : C ≠ -S := by
    intro hCS
    have hsum0 : ∑ n ∈ Finset.range N, (b.getD (n + s) 0 + b.getD n 0) ^ 2 = 0 :=
      le_antisymm (by rw [hminus, hCS]; linarith) hminus0
    have hall := (Finset.sum_eq_zero_iff_of_nonneg fun n _ => sq_nonneg _).mp hsum0
    have h0 := sq_eq_zero_iff.mp (hall n₀ (Finset.mem_range.mpr hn₀N))
    rw [hshift, zero_add] at h0
    exact hn₀0 h0
  rcases lt_or_eq_of_le (abs_le.mpr ⟨hCge, hCle⟩) with h | h
  · exact h
  · rcases (abs_eq hS0).mp h with h' | h'
    · exact absurd h' hne1
    · exact absurd h' hne2

/-- For a nonzero signal, the absolute autocorrelation at any nonzero lag
is strictly below the zero-lag autocorrelation. -/
theorem corrS_abs_lt (b : List ℚ) (t : ℤ) (ht : t ≠ 0)
    (hnz : ∃ n, n < b.length ∧ b.getD n 0 ≠ 0) :
    |corrS b t| < corrS b 0 := by
  rw [corrS_zero]
  rcases t with s | s
  · have hs : 1 ≤ s := by
      rcases Nat.eq_zero_or_pos s with h | h
      · exact absurd (by rw [h]; rfl) ht
      · exact h
    rw [show (Int.ofNat s) = (s : ℤ) from rfl, corrS_natCast]
    exact corr_abs_lt_energy b s hs hnz
  · rw [show (Int.negSucc s) = -((s + 1 : ℕ) : ℤ) by
        rw [Int.negSucc_eq]; push_cast; ring]
    rw [corrS_neg, corrS_natCast]
    exact corr_abs_lt_energy b (s + 1) (by omega) hnz

/-- Length of the full autocorrelation. -/
theorem correlateFull_self_length (b : List ℚ) :
    (correlateFull b b).length = b.length + b.length - 1 := by
  unfold correlateFull
  rw [List.length_map, List.length_range]

/-- Entry `j` of the full autocorrelation is the lag `j - (N - 1)`
autocorrelation sum. -/
theorem correlateFull_self_getElem (b : List ℚ) (j : ℕ)
    (h : j < (correlateFull b b).length) :
    (correlateFull b b)[j] = corrS b ((j : ℤ) - ((b.length : ℤ) - 1)) := by
  unfold correlateFull corrS
  rw [List.getElem_map, List.getElem_range]
  refine Finset.sum_congr rfl fun n _ => ?_
  rw [show (n : ℤ) + (j : ℤ) - ((b.length : ℤ) - 1) =
      (n : ℤ) + ((j : ℤ) - ((b.length : ℤ) - 1)) by ring]

/-- `argmaxFrom` keeps the incumbent when nothing later strictly beats it. -/
theorem argmaxFrom_const (bv : ℚ) (xs : List ℚ) :
    ∀ (bi i : ℕ), (∀ x ∈ xs, |x| ≤ bv) → argmaxFrom bi bv i xs = bi := by
  induction xs with
  | nil => intro bi i _; rfl
  | cons x xs ih =>
    intro bi i h
    rw [argmaxFrom, if_neg (not_lt.mpr (h x (by simp)))]
    exact ih bi (i + 1) fun y hy => h y (by simp [hy])

/-- `argmaxFrom` lands on a strictly dominating element. -/
theorem argmaxFrom_strict (mv : ℚ) (zs : List ℚ) (hzs : ∀ z ∈ zs, |z| ≤ |mv|) :
    ∀ (ys : List ℚ) (bi i : ℕ) (bv : ℚ), (∀ y ∈ ys, |y| < |mv|) → bv < |mv| →
      argmaxFrom bi bv i (ys ++ mv :: zs) = i + ys.length := by
  intro ys
  induction ys with
  | nil =>
    intro bi i bv _ hbv
    rw [List.nil_append, argmaxFrom, if_pos hbv, argmaxFrom_const _ _ _ _ hzs]
    simp
  | cons y ys ih =>
    intro bi i bv hys hbv
    rw [List.cons_append, argmaxFrom]
    by_cases hy : bv < |y|
    · rw [if_pos hy, ih i (i + 1) |y| (fun y' hy' => hys y' (by simp [hy']))
        (hys y (by simp))]
      simp only [List.length_cons]
      omega
    · rw [if_neg hy, ih bi (i + 1) bv (fun y' hy' => hys y' (by simp [hy'])) hbv]
      simp only [List.length_cons]
      omega

/-- `argmaxAbs` returns the index of a strict maximum of the absolute
values. -/
theorem argmaxAbs_of_strict (l : List ℚ) (k : ℕ) (hk : k < l.length)
    (hmax : ∀ j (hj : j < l.length), j ≠ k → |l[j]| < |l[k]|) :
    argmaxAbs l = k := by
  match l, hk with
  | x :: xs, hk =>
    show argmaxFrom 0 |x| 1 xs = k
    match k, hk with
    | 0, _ =>
      apply argmaxFrom_const
      intro z hz
      obtain ⟨j, hj, hzj⟩ := List.mem_iff_getElem.mp hz
      rw [← hzj]
      have h := hmax (j + 1) (by simp; omega) (by omega)
      simpa using h.le
    | k' + 1, hk =>
      have hk' : k' < xs.length := by simp at hk; omega
      have hys' : ∀ y ∈ xs.take k', |y| < |xs[k']| := by
        intro y hy
        obtain ⟨j, hj, hyj⟩ := List.mem_iff_getElem.mp hy
        have hjk : j < k' := by
          rw [List.length_take] at hj
          omega
        rw [← hyj, List.getElem_take]
        have h := hmax (j + 1) (by simp; omega) (by omega)
        simpa using h
      have hbv' : |x| < |xs[k']| := by
        have h := hmax 0 (by simp) (by omega)
        simpa using h
      have hzs' : ∀ z ∈ xs.drop (k' + 1), |z| ≤ |xs[k']| := by
        intro z hz
        obtain ⟨j, hj, hzj⟩ := List.mem_iff_getElem.mp hz
        have hjd : k' + 1 + j < xs.length := by
          rw [List.length_drop] at hj
          omega
        rw [← hzj, List.getElem_drop]
        have h := hmax (k' + 1 + j + 1) (by simp; omega) (by omega)
        simpa using h.le
      have hxs : xs = xs.take k' ++ xs[k'] :: xs.drop (k' + 1) := by
        rw [List.cons_getElem_drop_succ, List.take_append_drop]
      rw [show argmaxFrom 0 |x| 1 xs =
          argmaxFrom 0 |x| 1 (xs.take k' ++ xs[k'] :: xs.drop (k' + 1)) by
        rw [← hxs]]
      rw [argmaxFrom_strict (xs[k']) (xs.drop (k' + 1)) hzs' (xs.take k')
        0 1 |x| hys' hbv']
      rw [List.length_take]
      omega

/-- For a signal with a nonzero sample, the raw (unclamped) self-delay is
exactly zero: the absolute autocorrelation peaks strictly at the zero-lag
index, and the parabolic offset vanishes because the autocorrelation is
symmetric around that peak. -/
theorem rawTdoa_self (b : List ℚ) (sr : ℚ) (hnz : ∃ x ∈ b, x ≠ 0) :
    rawTdoa b b sr = 0 := by
  obtain ⟨x, hxmem, hx⟩ := hnz
  obtain ⟨nw, hnwlt, hnweq⟩ := List.mem_iff_getElem.mp hxmem
  have hnz' : ∃ n, n < b.length ∧ b.getD n 0 ≠ 0 :=
    ⟨nw, hnwlt, by rw [List.getD_eq_getElem _ _ hnwlt, hnweq]; exact hx⟩
  have hN : 1 ≤ b.length := by omega
  have hclen : (correlateFull b b).length = b.length + b.length - 1 :=
    correlateFull_self_length b
  have hC0nonneg : 0 ≤ corrS b 0 := by
    rw [corrS_zero]
    exact Finset.sum_nonneg fun n _ => sq_nonneg _
  have hargmax : argmaxAbs (correlateFull b b) = b.length - 1 := by
    apply argmaxAbs_of_strict _ _ (by omega)
    intro j hj hjne
    rw [correlateFull_self_getElem b j (by omega),
      correlateFull_self_getElem b (b.length - 1) (by omega)]
    rw [show ((b.length - 1 : ℕ) : ℤ) - ((b.length : ℤ) - 1) = 0 by omega]
    rw [abs_of_nonneg hC0nonneg]
    refine corrS_abs_lt b _ ?_ hnz'
    rw [hclen] at hj
    omega
  rcases Nat.lt_or_ge b.length 2 with hb2 | hN2
  · have hb1 : b.length = 1 := by omega
    unfold rawTdoa
    unfold refinedPeak
    rw [hargmax, hclen, hb1]
    norm_num
  · unfold rawTdoa
    unfold refinedPeak
    rw [hargmax, hclen]
    rw [if_pos ⟨by omega, by omega⟩]
    have hy1 : getQ (correlateFull b b) (((b.length - 1 : ℕ) : ℤ) - 1) =
        corrS b (-1) := by
      rw [show (((b.length - 1 : ℕ) : ℤ) - 1) = ((b.length - 2 : ℕ) : ℤ) by omega,
        getQ_natCast,
        List.getD_eq_getElem _ _ (by rw [hclen]; omega),
        correlateFull_self_getElem b _ (by rw [hclen]; omega)]
      congr 1
      omega
    have hy3 : getQ (correlateFull b b) (((b.length - 1 : ℕ) : ℤ) + 1) =
        corrS b 1 := by
      rw [show (((b.length - 1 : ℕ) : ℤ) + 1) = ((b.length : ℕ) : ℤ) by omega,
        getQ_natCast,
        List.getD_eq_getElem _ _ (by rw [hclen]; omega),
        correlateFull_self_getElem b _ (by rw [hclen]; omega)]
      congr 1
      omega
    rw [hy1, hy3]
    have hsym : corrS b 1 - corrS b (-1) = 0 := by
      have h := corrS_neg b 1
      push_cast at h
      rw [h, sub_self]
    rw [hsym, zero_div, add_zero]
    rw [Nat.cast_sub hN, Nat.cast_one, sub_self, zero_div]

/-- The clamp keeps the exactly-zero self-delay at zero. -/
theorem clampedTdoa_self (b : List ℚ) (sr : ℚ) (hnz : ∃ x ∈ b, x ≠ 0) :
    clampedTdoa b b sr = 0 := by
  rw [clampedTdoa, rawTdoa_self b sr hnz]
  norm_num [maxPhysicalDelay]

/-- The running maximum of absolute values is nonnegative. -/
theorem maxAbsList_nonneg (l : List ℚ) : 0 ≤ maxAbsList l := by
  induction l with
  | nil => exact le_refl 0
  | cons x xs ih => exact le_trans ih (le_max_right _ _)

/-- Every element's absolute value is bounded by the running maximum. -/
theorem abs_le_maxAbsList (l : List ℚ) (x : ℚ) (hx : x ∈ l) :
    |x| ≤ maxAbsList l := by
  induction l with
  | nil => cases hx
  | cons y ys ih =>
    rcases List.mem_cons.mp hx with rfl | h
    · exact le_max_left _ _
    · exact le_trans (ih h) (le_max_right _ _)

/-- The global peak of an array whose channels are all equal to `a` is the
peak of `a`. -/
theorem maxAbs2D_const (a : List ℚ) (cols : List (List ℚ)) (hne : cols ≠ [])
    (hall : ∀ c ∈ cols, c = a) : maxAbs2D cols = maxAbsList a := by
  induction cols with
  | nil => exact absurd rfl hne
  | cons c cs ih =>
    have hc : c = a := hall c (by simp)
    rcases eq_or_ne cs [] with rfl | hcs
    · show max (maxAbsList c) (maxAbs2D []) = maxAbsList a
      rw [hc]
      exact max_eq_left (maxAbsList_nonneg a)
    · have hcs' := ih hcs (fun d hd => hall d (by simp [hd]))
      show max (maxAbsList c) (maxAbs2D cs) = maxAbsList a
      rw [hc, hcs', max_self]

/-- Claim C8: for every array with at least 3 channels in which all
channels are identical and not identically zero, `calculate_tdoa_enhanced`
returns the TDOA vector `[0, 0]`: the absolute cross-correlation of the
(normalized) channel with itself peaks strictly at the zero-lag index and
the parabolic refinement offset vanishes by symmetry. -/
theorem tdoa_zero_for_identical_channels (audio : Audio2D) (sr : ℚ)
    (a : List ℚ) (h3 : 3 ≤ audio.cols.length) (hall : ∀ c ∈ audio.cols, c = a)
    (hnz : ∃ x ∈ a, x ≠ 0) :
    calculate_tdoa_enhanced audio sr = .ok [0, 0] := by
  have hne : audio.cols ≠ [] := by
    intro h
    rw [h] at h3
    simp at h3
  have hm : maxAbs2D audio.cols = maxAbsList a := maxAbs2D_const a audio.cols hne hall
  obtain ⟨x, hxa, hx0⟩ := hnz
  have hmpos : 0 < maxAbsList a :=
    lt_of_lt_of_le (abs_pos.mpr hx0) (abs_le_maxAbsList a x hxa)
  have hbnz : ∃ y ∈ a.map (fun v => v / maxAbs2D audio.cols), y ≠ 0 := by
    refine ⟨x / maxAbs2D audio.cols, List.mem_map.mpr ⟨x, hxa, rfl⟩, ?_⟩
    exact div_ne_zero hx0 (by rw [hm]; exact ne_of_gt hmpos)
  have hch : ∀ i, i < audio.cols.length →
      (audio.cols.map fun c => c.map fun v => v / maxAbs2D audio.cols).getD i [] =
        a.map (fun v => v / maxAbs2D audio.cols) := by
    intro i hi
    rw [List.getD_eq_getElem _ _ (by simpa using hi), List.getElem_map,
      hall (audio.cols[i]) (List.getElem_mem _)]
  unfold calculate_tdoa_enhanced
  rw [if_neg (Nat.not_lt.mpr h3)]
  simp only [List.map_cons, List.map_nil]
  rw [hch 0 (by omega), hch 1 (by omega), hch 2 (by omega),
    clampedTdoa_self _ sr hbnz]

/-- Concrete 3-channel array with all channels identical and nonzero. -/
theorem tdoa_zero_for_identical_channels_witness :
    calculate_tdoa_enhanced identAudio 1 = .ok [0, 0] :=
  tdoa_zero_for_identical_channels identAudio 1 [1, 2] (by decide)
    (fun c hc => by fin_cases hc <;> rfl) ⟨1, by simp, by norm_num⟩

/-- Padding / truncation always yields exactly `3 * sr` samples. -/
theorem preprocess_length (y : List ℚ) (sr : ℕ) :
    (preprocess_audio y sr).length = 3 * sr := by
  unfold preprocess_audio
  split
  · rename_i h
    rw [List.length_append, List.length_replicate]
    omega
  · rename_i h
    rw [List.length_take]
    omega

/-- The default head of a nonempty matrix with constant row length. -/
theorem headD_length (L : ℕ) : ∀ (mat : List (List ℚ)), mat ≠ [] →
    (∀ r ∈ mat, r.length = L) → (mat.headD []).length = L
  | [], h, _ => absurd rfl h
  | r :: _, _, hall => hall r (by simp)

/-- Head of a nonempty mapped range. -/
theorem range_map_headD (n : ℕ) (hn : 1 ≤ n) (g : ℕ → List ℚ) :
    ((List.range n).map g).headD [] = g 0 := by
  cases n with
  | zero => omega
  | succ k =>
    rw [List.range_succ_eq_map]
    simp

/-- The mel filter bank always has `n_mels` rows. -/
theorem filterbank_length (o : DSPOracle) (sr : ℕ) (n_mels n_fft_bins : ℕ) :
    (create_mel_filterbank o sr n_mels n_fft_bins).length = n_mels := by
  unfold create_mel_filterbank
  rw [List.length_zipWith, List.length_map, List.length_map,
    List.length_range, min_self]

/-- The mel spectrogram has 64 rows, each with one entry per input frame. -/
theorem linear_to_mel_shape (o : DSPOracle) (Sxx : List (List ℚ)) (sr : ℕ) :
    (linear_to_mel o Sxx sr 64).length = 64 ∧
      ∀ r ∈ linear_to_mel o Sxx sr 64, r.length = (Sxx.headD []).length := by
  constructor
  · unfold linear_to_mel
    rw [List.length_map, filterbank_length]
  · intro r hr
    unfold linear_to_mel at hr
    obtain ⟨frow, _, hfr⟩ := List.mem_map.mp hr
    rw [← hfr, List.length_map, List.length_range]

/-- The zoom output width equals the target (`round(c * (t/c)) = t`). -/
theorem zoomWidth_eq (c t : ℕ) (hc : 1 ≤ c) : zoomWidth c t = t := by
  unfold zoomWidth
  have hc0 : (c : ℚ) ≠ 0 := Nat.cast_ne_zero.mpr (by omega)
  have h : (c : ℚ) * ((t : ℚ) / (c : ℚ)) = (t : ℚ) := by
    field_simp
  rw [h, round_natCast, Int.toNat_natCast]

/-- `resize_to_target` on a matrix with at least one frame always returns
rows of exactly the target width, preserving the row count. -/
theorem resize_shape (mat : List (List ℚ)) (target : ℕ) (L : ℕ) (hL : 1 ≤ L)
    (_ht : 1 ≤ target) (_hne : mat ≠ []) (hrows : ∀ r ∈ mat, r.length = L)
    (hhead : (mat.headD []).length = L) :
    (resize_to_target mat target).length = mat.length ∧
      ∀ r ∈ resize_to_target mat target, r.length = target := by
  unfold resize_to_target
  rw [hhead]
  by_cases hLt : L = target
  · rw [if_pos hLt]
    exact ⟨rfl, fun r hr => by rw [hrows r hr, hLt]⟩
  · rw [if_neg hLt, zoomWidth_eq L target hL]
    rw [if_neg (lt_irrefl target), if_neg (lt_irrefl target)]
    constructor
    · rw [List.length_map]
    · intro r hr
      obtain ⟨row, _, hrow⟩ := List.mem_map.mp hr
      rw [← hrow]
      unfold zoomRow
      rw [List.length_map, List.length_range]

/-- After a successful spectrogram with at least one frame, the rest of the
pipeline yields a 64 × 259 matrix. -/
theorem features_of_spectrogram_shape (o : DSPOracle) (sr : ℕ)
    (Sxx : List (List ℚ)) (hhead : 1 ≤ (Sxx.headD []).length) :
    (normalizeMat o (sized_of o Sxx sr)).length = 64 ∧
      ∀ row ∈ normalizeMat o (sized_of o Sxx sr), row.length = 259 := by
  obtain ⟨hmellen, hmelrows⟩ := linear_to_mel_shape o Sxx sr
  have hdblen : (mel_db_of o Sxx sr).length = 64 := by
    unfold mel_db_of
    rw [List.length_map, hmellen]
  have hdbrows : ∀ r ∈ mel_db_of o Sxx sr, r.length = (Sxx.headD []).length := by
    intro r hr
    unfold mel_db_of at hr
    obtain ⟨r0, hr0, hrr⟩ := List.mem_map.mp hr
    rw [← hrr, List.length_map]
    exact hmelrows r0 hr0
  have hdbne : mel_db_of o Sxx sr ≠ [] := by
    intro h
    rw [h] at hdblen
    simp at hdblen
  have hdbhead : ((mel_db_of o Sxx sr).headD []).length = (Sxx.headD []).length :=
    headD_length _ _ hdbne hdbrows
  have hsized : (sized_of o Sxx sr).length = 64 ∧
      ∀ r ∈ sized_of o Sxx sr, r.length = 259 := by
    unfold sized_of
    by_cases h259 : ((mel_db_of o Sxx sr).headD []).length ≠ 259
    · rw [if_pos h259]
      have hres := resize_shape (mel_db_of o Sxx sr) 259 (Sxx.headD []).length
        hhead (by norm_num) hdbne hdbrows hdbhead
      exact ⟨by rw [hres.1, hdblen], hres.2⟩
    · rw [if_neg h259]
      push_neg at h259
      rw [hdbhead] at h259
      exact ⟨hdblen, fun r hr => (hdbrows r hr).trans h259⟩
  constructor
  · unfold normalizeMat
    rw [List.length_map, hsized.1]
  · intro row hrow
    unfold normalizeMat at hrow
    obtain ⟨r0, hr0, hrr⟩ := List.mem_map.mp hrow
    rw [← hrr, List.length_map]
    exact hsized.2 r0 hr0

/-- Claim C5 (amended): for every waveform and every sample rate of at
least 257 Hz (so that the 3 s padded signal is longer than the 768-sample
window overlap), `extract_features` returns a tensor of exactly three
identical channels of shape 64 × 259. -/
theorem extract_features_shape (o : DSPOracle) (y : List ℚ) (sr : ℕ)
    (hsr : 257 ≤ sr) :
    ∃ M, extract_features o y sr = .ok [M, M, M] ∧ M.length = 64 ∧
      ∀ row ∈ M, row.length = 259 := by
  have hplen : (preprocess_audio y sr).length = 3 * sr := preprocess_length y sr
  have hcond : ¬ (min 1024 (preprocess_audio y sr).length ≤ 768) := by
    rw [hplen]
    omega
  have hframes1 : 1 ≤ ((preprocess_audio y sr).length - 768) /
      (min 1024 (preprocess_audio y sr).length - 768) := by
    rw [hplen]
    rw [Nat.one_le_div_iff (by omega)]
    omega
  have hspec : ∃ S, spectrogram o (preprocess_audio y sr) = .ok S ∧
      1 ≤ (S.headD []).length := by
    unfold spectrogram
    rw [if_neg hcond]
    refine ⟨_, rfl, ?_⟩
    rw [range_map_headD _ (by omega) _, List.length_map, List.length_range]
    exact hframes1
  obtain ⟨Sxx, hS, hShead⟩ := hspec
  obtain ⟨hn1, hn2⟩ := features_of_spectrogram_shape o sr Sxx hShead
  refine ⟨normalizeMat o (sized_of o Sxx sr), ?_, hn1, hn2⟩
  unfold extract_features
  rw [hS]
  rfl

/-- Witness for C5 (amended) at the default sample rate 22050 Hz. -/
theorem extract_features_shape_witness :
    ∃ M, extract_features zeroOracle [] 22050 = .ok [M, M, M] ∧ M.length = 64 ∧
      ∀ row ∈ M, row.length = 259 :=
  extract_features_shape zeroOracle [] 22050 (by norm_num)

/-- Counterexample to claim C5: at sample rate 100 Hz the padded 3 s
signal has 300 samples, scipy clamps `nperseg` to 300 which is below the
768-sample overlap, and feature extraction raises instead of returning a
`(3, 64, 259)` tensor — even though the input lasts 0.1 s ≥ 0.1 s. -/
theorem extract_features_low_sr_cex :
    extract_features zeroOracle (List.replicate 10 1) 100 =
      .error "noverlap must be less than nperseg." ∧
      (1 : ℚ) / 10 ≤ (10 : ℚ) / 100 := by
  refine ⟨?_, by norm_num⟩
  have hlen : (preprocess_audio (List.replicate 10 1) 100).length = 300 := by
    rw [preprocess_length]
  unfold extract_features
  unfold spectrogram
  rw [hlen]
  rw [if_pos (by omega)]
  rfl

end DroneDet
